import Mathlib

/-!
# Verification of `odc.index._index` (odc-tools)

Shallow embedding of `src/libs/index/odc/index/_index.py`.

Time points are modelled as integers (ticks of the finest time resolution,
all within one fixed timezone, matching the source's requirement that
`begin` and `end` share a timezone which is copied onto every yielded bound).

The pandas `Period` machinery used by `time_range` is an external collaborator;
it is embedded as a `PeriodSystem`: an assignment of period indices to time
points such that periods tile the time line.  `Period(t, freq)` becomes
`P.period t`, `.start_time` becomes `P.start_time`, `.end_time` is the last
tick before the next period starts (pandas: last nanosecond of the period),
and `t += 1` becomes incrementing the period index.  The four supported
granularities (year/month/week/day) are particular `PeriodSystem`s; theorems
are proved for every `PeriodSystem`.

The datacube index, `Doc2Dataset` resolver and yaml parser are likewise
external collaborators, embedded as function parameters.  Generator functions
become functions returning lists; functions with observable external calls
(resolver invocations, error callbacks, dataset searches) additionally return
the ordered log of those calls.
-/

namespace OdcIndex

/-- Embedding of the pandas `Period` contract used by `time_range`:
`start_time` gives the first tick of each period (indexed over `Int`),
periods are nonempty and consecutive, and `period t` is the index of the
period containing the time point `t`. -/
structure PeriodSystem where
  start_time : Int → Int
  period : Int → Int
  start_lt : ∀ n : Int, start_time n < start_time (n + 1)
  period_start_le : ∀ t : Int, start_time (period t) ≤ t
  lt_next_start : ∀ t : Int, t < start_time (period t + 1)

/-- pandas `Period.end_time`: the last tick of period `n`, one tick before the
next period starts. -/
def PeriodSystem.end_time (P : PeriodSystem) (n : Int) : Int :=
  P.start_time (n + 1) - 1

/-- The `while True` loop of `time_range`, starting from period index `n`:
stop when the current period starts after `e`, otherwise yield the period's
span clipped to `[b, e]` and advance to the next period. -/
def time_range_go (P : PeriodSystem) (b e : Int) (n : Int) : List (Int × Int) :=
  if P.start_time n > e then []
  else (max (P.start_time n) b, min (P.end_time n) e) :: time_range_go P b e (n + 1)
termination_by (e + 1 - P.start_time n).toNat
decreasing_by
  have h1 := P.start_lt n
  simp only [gt_iff_lt, not_lt] at *
  omega

/-- Embedding of `time_range(begin, end, freq)`: tuples of time points aligned to the
boundaries of the requested period, starting at the period containing
`begin` (`Period(begin, freq)` in the source). -/
def time_range (P : PeriodSystem) (b e : Int) : List (Int × Int) :=
  time_range_go P b e (P.period b)

/-- A concrete `PeriodSystem` with uniform periods of positive length `L`
(e.g. `L = 86400000000` microsecond ticks for the day granularity). -/
def uniformPeriods (L : Int) (hL : 0 < L) : PeriodSystem where
  start_time n := n * L
  period t := t / L
  start_lt n := by dsimp only; nlinarith
  period_start_le t := Int.ediv_mul_le t hL.ne'
  lt_next_start t := by
    dsimp only
    have h1 := Int.emod_lt_of_pos t hL
    have h2 := Int.ediv_add_emod t L
    nlinarith

/-- Uniform periods of length 10, used as a concrete granularity in witnesses. -/
def P10 : PeriodSystem := uniformPeriods 10 (by norm_num)

/-- Embedding of `datacube.api.query.Query`: named non-time search terms plus
an optional time range (datacube's `Range(begin, end)` becomes a pair).
`search_terms` in the source is the dict of all terms; here the time entry is
kept in its own field so that `qq.pop('time')` is field selection. -/
structure Query where
  search_terms : List (String × String)
  time : Option (Int × Int)
deriving DecidableEq, Repr

/-- Embedding of `chop_query_by_time(q, freq)`: replace the query's time range by each
sub-interval of `time_range`, raising `ValueError` when the query has no
time range.  The raised exception is embedded as `Except.error`. -/
def chop_query_by_time (P : PeriodSystem) (q : Query) : Except String (List Query) :=
  match q.time with
  | none => Except.error "Need time range in the query"
  | some t =>
      Except.ok ((time_range P t.1 t.2).map
        (fun p => { search_terms := q.search_terms, time := some p }))

/-- A dataset record as seen by `ordered_dss`: opaque except for its
`center_time` sort key (an `id` distinguishes records with equal times). -/
structure Dataset where
  id : Nat
  center_time : Int
deriving DecidableEq, Repr

/-- The sort key of `dss.sort(key=lambda ds: ds.center_time)`. -/
def dsLE (a b : Dataset) : Prop :=
  a.center_time ≤ b.center_time

instance : DecidableRel dsLE := fun a b =>
  inferInstanceAs (Decidable (a.center_time ≤ b.center_time))

instance : IsTotal Dataset dsLE :=
  ⟨fun a b => Int.le_total a.center_time b.center_time⟩

instance : IsTrans Dataset dsLE :=
  ⟨fun _ _ _ => Int.le_trans⟩

/-- The loop of `ordered_dss` over the chopped sub-queries: issue one
`find_datasets` call per sub-query, sort the batch by center time, and
yield it before moving on.  Returns the yielded stream together with the
ordered log of `find_datasets` calls. -/
def ordered_dss_go (find_datasets : Query → List Dataset) :
    List Query → List Dataset × List Query
  | [] => ([], [])
  | q :: qs =>
      let dss := List.insertionSort dsLE (find_datasets q)
      let rest := ordered_dss_go find_datasets qs
      (dss ++ rest.1, q :: rest.2)

/-- Embedding of `ordered_dss(dc, freq, **query)`: emulate an order-by-time streaming
interface by chopping the query along time and sorting each batch.
`dc.find_datasets` is the external search operation. -/
def ordered_dss (find_datasets : Query → List Dataset) (P : PeriodSystem)
    (q : Query) : Except String (List Dataset × List Query) :=
  match chop_query_by_time P q with
  | Except.error msg => Except.error msg
  | Except.ok subs => Except.ok (ordered_dss_go find_datasets subs)

/-- Python `'%s' % err` of the resolver's error detail (`None` prints as
`"None"`). -/
def pyStr : Option String → String
  | none => "None"
  | some s => s

/-- Embedding of `from_metadata_stream(metadata_stream, index, **kwargs)`: convert
`(uri, metadata)` tuples into `(Dataset, None)` or `(None, error_message)`
tuples.  `doc2ds` is the external `Doc2Dataset(index, **kwargs)` resolver;
the second component of the result is the ordered log of resolver
invocations (`metadata`, `uri` argument pairs). -/
def from_metadata_stream {M : Type} (doc2ds : M → String → Option Dataset × Option String) :
    List (String × Option M) → List (Option Dataset × Option String) × List (M × String)
  | [] => ([], [])
  | (uri, none) :: rest =>
      let r := from_metadata_stream doc2ds rest
      ((none, some ("Error: empty doc " ++ uri)) :: r.1, r.2)
  | (uri, some metadata) :: rest =>
      let r := from_metadata_stream doc2ds rest
      match doc2ds metadata uri with
      | (some ds, _) => ((some ds, none) :: r.1, (metadata, uri) :: r.2)
      | (none, err) =>
          ((none, some ("Error: " ++ uri ++ ", " ++ pyStr err)) :: r.1,
            (metadata, uri) :: r.2)

/-- Embedding of `parse_doc_stream(doc_stream, on_error)`: replace doc bytes/strings with
parsed dicts, or `None` when parsing raised.  `parse_yaml` is the external
parser (`Except` embeds its raised exceptions).  The second component is the
ordered log of `on_error(uri, doc, exception)` callback invocations (issued
when a callback is supplied). -/
def parse_doc_stream {D M E : Type} (parse_yaml : D → Except E M) :
    List (String × D) → List (String × Option M) × List (String × D × E)
  | [] => ([], [])
  | (uri, doc) :: rest =>
      let r := parse_doc_stream parse_yaml rest
      match parse_yaml doc with
      | Except.ok m => ((uri, some m) :: r.1, r.2)
      | Except.error e => ((uri, none) :: r.1, (uri, doc, e) :: r.2)

/-- Embedding of `dataset_count(index, **query)`: delegate to the external index's count
with the query's search terms (here: product and time string). -/
def dataset_count (count : String → String → Nat) (product time : String) : Nat :=
  count product time

/-- Python `range(lo, hi)` over integers. -/
def intRange (lo hi : Int) : List Int :=
  (List.range (hi - lo).toNat).map (fun i : Nat => lo + (i : Int))

/-- Embedding of `count_by_year(index, product, min_year, max_year)`: year → dataset count
for this year, only non-empty years reported; `min_year`/`max_year` default to
the hardcoded 1970/2022 bounds.  The Python dict (insertion-ordered, distinct
keys) is embedded as the association list in construction order. -/
def count_by_year (count : String → String → Nat) (product : String)
    (min_year max_year : Option Int) : List (Int × Nat) :=
  let miny := min_year.getD 1970
  let maxy := max_year.getD 2022
  let ll := (intRange miny maxy).map
    (fun year => (year, dataset_count count product (toString year)))
  ll.filter (fun p => decide (0 < p.2))

/-! ## Helper lemmas about the partitioner loop -/

theorem time_range_go_unfold (P : PeriodSystem) (b e n : Int) :
    time_range_go P b e n =
      if P.start_time n > e then []
      else (max (P.start_time n) b, min (P.end_time n) e) :: time_range_go P b e (n + 1) := by
  rw [time_range_go]

theorem end_time_lt_next (P : PeriodSystem) (n : Int) :
    P.end_time n < P.end_time (n + 1) := by
  have := P.start_lt (n + 1)
  unfold PeriodSystem.end_time
  omega

theorem start_le_end (P : PeriodSystem) (n : Int) :
    P.start_time n ≤ P.end_time n := by
  have := P.start_lt n
  unfold PeriodSystem.end_time
  omega

/-- Every interval yielded from period `n` onwards starts no earlier than
period `n` does. -/
theorem time_range_go_fst_ge (P : PeriodSystem) (b e n : Int) :
    ∀ p ∈ time_range_go P b e n, P.start_time n ≤ p.1 := by
  intro p hp
  rw [time_range_go_unfold] at hp
  by_cases h : P.start_time n > e
  · simp [h] at hp
  · simp only [h, if_false, List.mem_cons] at hp
    rcases hp with rfl | hp
    · exact le_max_left _ _
    · have h1 := time_range_go_fst_ge P b e (n + 1) p hp
      have h2 := P.start_lt n
      omega
termination_by (e + 1 - P.start_time n).toNat
decreasing_by
  have h1 := P.start_lt n
  simp only [gt_iff_lt, not_lt] at h
  omega

/-- Coverage of the tail of the loop: starting from period `n` (with `b` not
after period `n` ends), the yielded intervals cover exactly the time points of
`[max (start n) b, e]`. -/
theorem time_range_go_cover (P : PeriodSystem) (b e n : Int)
    (hb : b ≤ P.end_time n) (t : Int) :
    (max (P.start_time n) b ≤ t ∧ t ≤ e) ↔
      ∃ p ∈ time_range_go P b e n, p.1 ≤ t ∧ t ≤ p.2 := by
  rw [time_range_go_unfold]
  by_cases h : P.start_time n > e
  · simp only [h, if_true, List.not_mem_nil, false_and, exists_false, iff_false, not_and,
      not_le, max_le_iff, and_imp]
    intro h1 h2
    omega
  · simp only [h, if_false, List.mem_cons]
    have hb' : b ≤ P.end_time (n + 1) := le_of_lt (lt_of_le_of_lt hb (end_time_lt_next P n))
    have IH := time_range_go_cover P b e (n + 1) hb' t
    have hSn : P.start_time n ≤ e := by omega
    have hSS := P.start_lt n
    have hEn : P.end_time n = P.start_time (n + 1) - 1 := rfl
    constructor
    · rintro ⟨h1, h2⟩
      rw [max_le_iff] at h1
      by_cases hc : t ≤ P.end_time n
      · exact ⟨_, Or.inl rfl, by simp only [max_le_iff, le_min_iff]; omega⟩
      · obtain ⟨p, hp, hpt⟩ := IH.mp (by rw [max_le_iff]; omega)
        exact ⟨p, Or.inr hp, hpt⟩
    · rintro ⟨p, hp | hp, hpt⟩
      · subst hp
        simp only [max_le_iff, le_min_iff] at hpt
        rw [max_le_iff]
        omega
      · have h1 := IH.mpr ⟨p, hp, hpt⟩
        rw [max_le_iff] at h1 ⊢
        omega
termination_by (e + 1 - P.start_time n).toNat
decreasing_by
  have h1 := P.start_lt n
  simp only [gt_iff_lt, not_lt] at h
  omega

/-- Adjacency: each interval yielded by the loop starts one tick after the
previous one ends. -/
theorem time_range_go_adjacent (P : PeriodSystem) (b e n : Int)
    (hb : b ≤ P.end_time n) :
    List.Chain' (fun p q : Int × Int => q.1 = p.2 + 1) (time_range_go P b e n) := by
  rw [time_range_go_unfold]
  by_cases h : P.start_time n > e
  · simp [h]
  · simp only [h, if_false]
    have hb' : b ≤ P.end_time (n + 1) := le_of_lt (lt_of_le_of_lt hb (end_time_lt_next P n))
    have IH := time_range_go_adjacent P b e (n + 1) hb'
    refine List.chain'_cons'.mpr ⟨?_, IH⟩
    intro q hq
    rw [time_range_go_unfold] at hq
    by_cases h2 : P.start_time (n + 1) > e
    · simp [h2] at hq
    · simp only [h2, if_false, List.head?_cons, Option.mem_def, Option.some.injEq] at hq
      subst hq
      have hEn : P.end_time n = P.start_time (n + 1) - 1 := rfl
      simp only [gt_iff_lt, not_lt] at h2
      have hmax : max (P.start_time (n + 1)) b = P.start_time (n + 1) := by
        rw [max_eq_left]; omega
      have hmin : min (P.end_time n) e = P.end_time n := by
        rw [min_eq_left]; omega
      simp only [hmax, hmin]
      omega
termination_by (e + 1 - P.start_time n).toNat
decreasing_by
  have h1 := P.start_lt n
  simp only [gt_iff_lt, not_lt] at h
  omega

/-- Well-formedness: with `b ≤ e`, every yielded interval has `t0 ≤ t1`. -/
theorem time_range_go_wf (P : PeriodSystem) (b e n : Int)
    (hbe : b ≤ e) (hb : b ≤ P.end_time n) :
    ∀ p ∈ time_range_go P b e n, p.1 ≤ p.2 := by
  intro p hp
  rw [time_range_go_unfold] at hp
  by_cases h : P.start_time n > e
  · simp [h] at hp
  · simp only [h, if_false, List.mem_cons] at hp
    rcases hp with rfl | hp
    · have h1 := start_le_end P n
      simp only [gt_iff_lt, not_lt] at h
      simp only [max_le_iff, le_min_iff]
      omega
    · have hb' : b ≤ P.end_time (n + 1) := le_of_lt (lt_of_le_of_lt hb (end_time_lt_next P n))
      exact time_range_go_wf P b e (n + 1) hbe hb' p hp
termination_by (e + 1 - P.start_time n).toNat
decreasing_by
  have h1 := P.start_lt n
  simp only [gt_iff_lt, not_lt] at h
  omega

/-- Disjointness: any yielded interval ends strictly before any later one
starts. -/
theorem time_range_go_disjoint (P : PeriodSystem) (b e n : Int) :
    List.Pairwise (fun p q : Int × Int => p.2 < q.1) (time_range_go P b e n) := by
  rw [time_range_go_unfold]
  by_cases h : P.start_time n > e
  · simp [h]
  · simp only [h, if_false, List.pairwise_cons]
    refine ⟨?_, time_range_go_disjoint P b e (n + 1)⟩
    intro q hq
    have h1 := time_range_go_fst_ge P b e (n + 1) q hq
    have hEn : P.end_time n = P.start_time (n + 1) - 1 := rfl
    have h2 : min (P.end_time n) e ≤ P.end_time n := min_le_left _ _
    omega
termination_by (e + 1 - P.start_time n).toNat
decreasing_by
  have h1 := P.start_lt n
  simp only [gt_iff_lt, not_lt] at h
  omega

/-- Strict growth of start points along the loop. -/
theorem time_range_go_fst_mono (P : PeriodSystem) (b e n : Int)
    (hb : b ≤ P.end_time n) :
    List.Chain' (fun p q : Int × Int => p.1 < q.1) (time_range_go P b e n) := by
  rw [time_range_go_unfold]
  by_cases h : P.start_time n > e
  · simp [h]
  · simp only [h, if_false]
    have hb' : b ≤ P.end_time (n + 1) := le_of_lt (lt_of_le_of_lt hb (end_time_lt_next P n))
    refine List.chain'_cons'.mpr ⟨?_, time_range_go_fst_mono P b e (n + 1) hb'⟩
    intro q hq
    have hmem : q ∈ time_range_go P b e (n + 1) := List.mem_of_mem_head? hq
    have h1 := time_range_go_fst_ge P b e (n + 1) q hmem
    have hSS := P.start_lt n
    have hEn : P.end_time n = P.start_time (n + 1) - 1 := rfl
    simp only [max_lt_iff]
    omega
termination_by (e + 1 - P.start_time n).toNat
decreasing_by
  have h1 := P.start_lt n
  simp only [gt_iff_lt, not_lt] at h
  omega

theorem b_le_end_period (P : PeriodSystem) (b : Int) :
    b ≤ P.end_time (P.period b) := by
  have := P.lt_next_start b
  unfold PeriodSystem.end_time
  omega

theorem max_start_period (P : PeriodSystem) (b : Int) :
    max (P.start_time (P.period b)) b = b :=
  max_eq_right (P.period_start_le b)

/-! ## Claims about the time-range partitioner -/

/-- C1: for every pair of time points `b ≤ e` (in a shared timezone, here one
integer time line) and every granularity (any `PeriodSystem`), the
sub-intervals yielded by `time_range` cover exactly the time points of
`[b, e]` (no gaps), are adjacent (each starts one tick after the previous
ends), are well-formed, and are pairwise non-overlapping. -/
theorem time_range_partition (P : PeriodSystem) (b e : Int) (hbe : b ≤ e) :
    (∀ t : Int, (b ≤ t ∧ t ≤ e) ↔ ∃ p ∈ time_range P b e, p.1 ≤ t ∧ t ≤ p.2)
    ∧ List.Chain' (fun p q : Int × Int => q.1 = p.2 + 1) (time_range P b e)
    ∧ (∀ p ∈ time_range P b e, p.1 ≤ p.2)
    ∧ List.Pairwise (fun p q : Int × Int => p.2 < q.1) (time_range P b e) := by
  have hb := b_le_end_period P b
  refine ⟨fun t => ?_, time_range_go_adjacent P b e _ hb,
    time_range_go_wf P b e _ hbe hb, time_range_go_disjoint P b e _⟩
  have h := time_range_go_cover P b e (P.period b) hb t
  rw [max_start_period P b] at h
  exact h

/-- Witness for C1 at the concrete granularity `P10`, `b = 5`, `e = 27`. -/
theorem time_range_partition_witness :
    (5 : Int) ≤ 27
    ∧ ((∀ t : Int, ((5 : Int) ≤ t ∧ t ≤ 27) ↔ ∃ p ∈ time_range P10 5 27, p.1 ≤ t ∧ t ≤ p.2)
       ∧ List.Chain' (fun p q : Int × Int => q.1 = p.2 + 1) (time_range P10 5 27)
       ∧ (∀ p ∈ time_range P10 5 27, p.1 ≤ p.2)
       ∧ List.Pairwise (fun p q : Int × Int => p.2 < q.1) (time_range P10 5 27)) :=
  ⟨by norm_num, time_range_partition P10 5 27 (by norm_num)⟩

/-- C4: for every time point `b` and every granularity, `time_range b b`
yields exactly one interval, equal to `(b, b)`. -/
theorem time_range_degenerate (P : PeriodSystem) (b : Int) :
    time_range P b b = [(b, b)] := by
  unfold time_range
  rw [time_range_go_unfold]
  have h1 := P.period_start_le b
  have h2 := P.lt_next_start b
  have h3 : ¬ P.start_time (P.period b) > b := by omega
  simp only [h3, if_false]
  rw [time_range_go_unfold]
  have h4 : P.start_time (P.period b + 1) > b := h2
  simp only [h4, if_true]
  have hmin : min (P.end_time (P.period b)) b = b :=
    min_eq_right (b_le_end_period P b)
  simp [max_start_period P b, hmin]

/-- C5: for every `b ≤ e` and every granularity, the start points of the
successive yielded intervals are strictly increasing. -/
theorem time_range_strict_mono (P : PeriodSystem) (b e : Int) (_hbe : b ≤ e) :
    List.Chain' (fun p q : Int × Int => p.1 < q.1) (time_range P b e) :=
  time_range_go_fst_mono P b e _ (b_le_end_period P b)

/-- Witness for C5 at the concrete granularity `P10`, `b = 5`, `e = 27`. -/
theorem time_range_strict_mono_witness :
    (5 : Int) ≤ 27
    ∧ List.Chain' (fun p q : Int × Int => p.1 < q.1) (time_range P10 5 27) :=
  ⟨by norm_num, time_range_strict_mono P10 5 27 (by norm_num)⟩

/-- C10: with `e < b`, `time_range` neither raises nor always yields nothing:
when `e` is not before the start of the period containing `b` it yields
exactly the single inverted pair `(b, e)` (so `t0 > t1`); only when `e`
precedes that period's start does it yield nothing. -/
theorem time_range_inverted (P : PeriodSystem) (b e : Int) (h : e < b) :
    (P.start_time (P.period b) ≤ e → time_range P b e = [(b, e)] ∧ e < b)
    ∧ (e < P.start_time (P.period b) → time_range P b e = []) := by
  constructor
  · intro hle
    refine ⟨?_, h⟩
    unfold time_range
    rw [time_range_go_unfold]
    have h3 : ¬ P.start_time (P.period b) > e := by omega
    simp only [h3, if_false]
    rw [time_range_go_unfold]
    have h2 := P.lt_next_start b
    have h4 : P.start_time (P.period b + 1) > e := by omega
    simp only [h4, if_true]
    have hb := b_le_end_period P b
    have hmin : min (P.end_time (P.period b)) e = e := min_eq_right (by omega)
    simp [max_start_period P b, hmin]
  · intro hlt
    unfold time_range
    rw [time_range_go_unfold]
    simp [hlt]

/-- Witness for C10 at the concrete granularity `P10`, `b = 7`, `e = 3`
(the period containing `7` starts at `0 ≤ 3`, so one inverted pair). -/
theorem time_range_inverted_witness :
    (3 : Int) < 7
    ∧ ((P10.start_time (P10.period 7) ≤ 3 → time_range P10 7 3 = [(7, 3)] ∧ (3 : Int) < 7)
       ∧ (3 < P10.start_time (P10.period 7) → time_range P10 7 3 = [])) :=
  ⟨by norm_num, time_range_inverted P10 7 3 (by norm_num)⟩

/-! ## Claims about the query chopper and ordered streamer -/

/-- C3: chopping a query with no time range raises the `ValueError` (embedded
as `Except.error`) and yields no sub-query at all. -/
theorem chop_query_no_time (P : PeriodSystem) (q : Query) (h : q.time = none) :
    chop_query_by_time P q = Except.error "Need time range in the query" := by
  unfold chop_query_by_time
  rw [h]

/-- Witness for C3 at a concrete time-less query. -/
theorem chop_query_no_time_witness :
    (({ search_terms := [("product", "ls8")], time := none } : Query).time = none)
    ∧ chop_query_by_time P10 { search_terms := [("product", "ls8")], time := none }
        = Except.error "Need time range in the query" :=
  ⟨rfl, chop_query_no_time P10 { search_terms := [("product", "ls8")], time := none } rfl⟩

/-- C8: for a query carrying a time range, the chopper yields one sub-query
per partitioner sub-interval, in partitioner order, whose time is that
sub-interval and whose non-time search terms equal the input's. -/
theorem chop_query_fields (P : PeriodSystem) (q : Query) (b e : Int)
    (h : q.time = some (b, e)) :
    ∃ l, chop_query_by_time P q = Except.ok l
      ∧ l.map Query.time = (time_range P b e).map some
      ∧ ∀ q' ∈ l, q'.search_terms = q.search_terms := by
  have hc : chop_query_by_time P q
      = Except.ok ((time_range P b e).map
          (fun p => { search_terms := q.search_terms, time := some p })) := by
    unfold chop_query_by_time
    rw [h]
  refine ⟨_, hc, ?_, ?_⟩
  · rw [List.map_map]
    rfl
  · intro q' hq'
    rw [List.mem_map] at hq'
    obtain ⟨p, _, rfl⟩ := hq'
    rfl

/-- Witness for C8 at the concrete granularity `P10` and a concrete query. -/
theorem chop_query_fields_witness :
    (({ search_terms := [("product", "ls8")], time := some (5, 27) } : Query).time
        = some (5, 27))
    ∧ ∃ l, chop_query_by_time P10 { search_terms := [("product", "ls8")], time := some (5, 27) }
          = Except.ok l
        ∧ l.map Query.time = (time_range P10 5 27).map some
        ∧ ∀ q' ∈ l, q'.search_terms
            = ({ search_terms := [("product", "ls8")], time := some (5, 27) } : Query).search_terms :=
  ⟨rfl, chop_query_fields P10 { search_terms := [("product", "ls8")], time := some (5, 27) }
    5 27 rfl⟩

theorem ordered_dss_go_eq (find_datasets : Query → List Dataset) (subs : List Query) :
    ordered_dss_go find_datasets subs
      = ((subs.map (fun sq => List.insertionSort dsLE (find_datasets sq))).flatten, subs) := by
  induction subs with
  | nil => rfl
  | cons sq qs ih => simp [ordered_dss_go, ih]

/-- C2: for a query with a time range, `ordered_dss` issues exactly one
dataset search per chopped sub-query (the call log equals the sub-query
list, in order), and the yielded stream is the concatenation of one batch
per sub-query — each batch a permutation of that sub-query's search result,
internally non-decreasing by center time, fully yielded before the next
batch. -/
theorem ordered_dss_spec (find_datasets : Query → List Dataset) (P : PeriodSystem)
    (q : Query) (b e : Int) (h : q.time = some (b, e)) :
    ∃ subs batches,
      chop_query_by_time P q = Except.ok subs
      ∧ ordered_dss find_datasets P q = Except.ok (batches.flatten, subs)
      ∧ List.Forall₂
          (fun batch sq => batch.Perm (find_datasets sq) ∧ List.Sorted dsLE batch)
          batches subs := by
  have hc : chop_query_by_time P q
      = Except.ok ((time_range P b e).map
          (fun p => { search_terms := q.search_terms, time := some p })) := by
    unfold chop_query_by_time
    rw [h]
  refine ⟨(time_range P b e).map (fun p => { search_terms := q.search_terms, time := some p }),
    ((time_range P b e).map (fun p => { search_terms := q.search_terms, time := some p })).map
      (fun sq => List.insertionSort dsLE (find_datasets sq)), hc, ?_, ?_⟩
  · unfold ordered_dss
    rw [hc]
    dsimp only
    rw [ordered_dss_go_eq]
  · rw [List.forall₂_map_left_iff, List.forall₂_same]
    intro sq _
    exact ⟨List.perm_insertionSort dsLE (find_datasets sq),
      List.sorted_insertionSort dsLE (find_datasets sq)⟩

/-- Witness for C2 at a concrete granularity, query and search function. -/
theorem ordered_dss_spec_witness :
    (({ search_terms := [("product", "ls8")], time := some (5, 27) } : Query).time
        = some (5, 27))
    ∧ ∃ subs batches,
        chop_query_by_time P10 { search_terms := [("product", "ls8")], time := some (5, 27) }
          = Except.ok subs
        ∧ ordered_dss (fun _ => [⟨1, 9⟩, ⟨2, 3⟩]) P10
            { search_terms := [("product", "ls8")], time := some (5, 27) }
          = Except.ok (batches.flatten, subs)
        ∧ List.Forall₂
            (fun batch sq => batch.Perm ((fun _ => [⟨1, 9⟩, ⟨2, 3⟩]) sq)
              ∧ List.Sorted dsLE batch)
            batches subs :=
  ⟨rfl, ordered_dss_spec (fun _ => [⟨1, 9⟩, ⟨2, 3⟩]) P10
    { search_terms := [("product", "ls8")], time := some (5, 27) } 5 27 rfl⟩

/-! ## Claims about the metadata streams and the counting helper -/

/-- C6: for `N` input `(uri, metadata)` pairs, `from_metadata_stream` yields
exactly `N` results, in input order, each either `(dataset, none)` or
`(none, message)` with exactly one side present; an absence-marker input
yields an error naming the source and stating the doc was empty, and the
resolver-call log contains exactly the non-absent inputs (so the resolver is
never invoked for an absence-marker input). -/
theorem from_metadata_stream_spec {M : Type}
    (doc2ds : M → String → Option Dataset × Option String)
    (metadata_stream : List (String × Option M)) :
    (from_metadata_stream doc2ds metadata_stream).1.length = metadata_stream.length
    ∧ List.Forall₂
        (fun (inp : String × Option M) (res : Option Dataset × Option String) =>
          ((∃ d, res = (some d, none)) ∨ (∃ msg, res = (none, some msg)))
          ∧ (inp.2 = none → res = (none, some ("Error: empty doc " ++ inp.1))))
        metadata_stream (from_metadata_stream doc2ds metadata_stream).1
    ∧ (from_metadata_stream doc2ds metadata_stream).2
        = metadata_stream.filterMap (fun inp => inp.2.map (fun m => (m, inp.1))) := by
  induction metadata_stream with
  | nil => exact ⟨rfl, List.Forall₂.nil, rfl⟩
  | cons hd tl ih =>
    obtain ⟨hlen, hfa, hcalls⟩ := ih
    obtain ⟨uri, mo⟩ := hd
    cases mo with
    | none =>
        rw [show from_metadata_stream doc2ds ((uri, none) :: tl)
            = ((none, some ("Error: empty doc " ++ uri)) :: (from_metadata_stream doc2ds tl).1,
                (from_metadata_stream doc2ds tl).2) by
          simp only [from_metadata_stream]]
        refine ⟨by simpa using hlen, ?_, by simpa using hcalls⟩
        exact List.Forall₂.cons ⟨Or.inr ⟨_, rfl⟩, fun _ => rfl⟩ hfa
    | some m =>
        rcases hds : doc2ds m uri with ⟨ds, err⟩
        cases ds with
        | some d =>
            rw [show from_metadata_stream doc2ds ((uri, some m) :: tl)
                = ((some d, none) :: (from_metadata_stream doc2ds tl).1,
                    (m, uri) :: (from_metadata_stream doc2ds tl).2) by
              simp only [from_metadata_stream, hds]]
            refine ⟨by simpa using hlen, ?_, by simpa using hcalls⟩
            exact List.Forall₂.cons ⟨Or.inl ⟨d, rfl⟩, by simp⟩ hfa
        | none =>
            rw [show from_metadata_stream doc2ds ((uri, some m) :: tl)
                = ((none, some ("Error: " ++ uri ++ ", " ++ pyStr err))
                      :: (from_metadata_stream doc2ds tl).1,
                    (m, uri) :: (from_metadata_stream doc2ds tl).2) by
              simp only [from_metadata_stream, hds]]
            refine ⟨by simpa using hlen, ?_, by simpa using hcalls⟩
            exact List.Forall₂.cons ⟨Or.inr ⟨_, rfl⟩, by simp⟩ hfa

/-- C7: `parse_doc_stream` yields one output per input, in input order with
identifiers preserved; a failing item's metadata is the absence-marker and a
succeeding item's is its parse; the error-callback log contains exactly one
entry per failing item, in order, carrying that item's identifier, raw doc
and failure detail — so the stream continues past every failure. -/
theorem parse_doc_stream_spec {D M E : Type} (parse_yaml : D → Except E M)
    (doc_stream : List (String × D)) :
    (parse_doc_stream parse_yaml doc_stream).1.length = doc_stream.length
    ∧ List.Forall₂
        (fun (inp : String × D) (out : String × Option M) =>
          out.1 = inp.1
          ∧ (∀ m, parse_yaml inp.2 = Except.ok m → out.2 = some m)
          ∧ (∀ er, parse_yaml inp.2 = Except.error er → out.2 = none))
        doc_stream (parse_doc_stream parse_yaml doc_stream).1
    ∧ (parse_doc_stream parse_yaml doc_stream).2
        = doc_stream.filterMap
            (fun inp => match parse_yaml inp.2 with
              | Except.ok _ => none
              | Except.error er => some (inp.1, inp.2, er)) := by
  induction doc_stream with
  | nil => exact ⟨rfl, List.Forall₂.nil, rfl⟩
  | cons hd tl ih =>
    obtain ⟨hlen, hfa, hcalls⟩ := ih
    obtain ⟨uri, doc⟩ := hd
    cases hp : parse_yaml doc with
    | ok m =>
        rw [show parse_doc_stream parse_yaml ((uri, doc) :: tl)
            = ((uri, some m) :: (parse_doc_stream parse_yaml tl).1,
                (parse_doc_stream parse_yaml tl).2) by
          simp only [parse_doc_stream, hp]]
        refine ⟨by simpa using hlen, ?_, by simp [hp, hcalls]⟩
        refine List.Forall₂.cons ⟨rfl, ?_, ?_⟩ hfa
        · intro m' hm'
          rw [hp] at hm'
          cases hm'
          rfl
        · intro er her
          rw [hp] at her
          cases her
    | error er =>
        rw [show parse_doc_stream parse_yaml ((uri, doc) :: tl)
            = ((uri, none) :: (parse_doc_stream parse_yaml tl).1,
                (uri, doc, er) :: (parse_doc_stream parse_yaml tl).2) by
          simp only [parse_doc_stream, hp]]
        refine ⟨by simpa using hlen, ?_, by simp [hp, hcalls]⟩
        refine List.Forall₂.cons ⟨rfl, ?_, fun _ _ => rfl⟩ hfa
        intro m' hm'
        rw [hp] at hm'
        cases hm'

theorem mem_intRange (lo hi t : Int) : t ∈ intRange lo hi ↔ lo ≤ t ∧ t < hi := by
  unfold intRange
  rw [List.mem_map]
  constructor
  · rintro ⟨i, hi', rfl⟩
    rw [List.mem_range] at hi'
    omega
  · rintro ⟨h1, h2⟩
    refine ⟨(t - lo).toNat, ?_, by omega⟩
    rw [List.mem_range]
    omega

/-- C9: `count_by_year` returns exactly the years of the queried range (a
Python `range`, lower bound inclusive, upper bound exclusive) whose dataset
count is nonzero, each mapped to its count; omitted bounds fall back to the
hardcoded `range(1970, 2022)` default. -/
theorem count_by_year_spec (count : String → String → Nat) (product : String) :
    (∀ miny maxy y : Int, ∀ c : Nat,
        (y, c) ∈ count_by_year count product (some miny) (some maxy)
          ↔ (miny ≤ y ∧ y < maxy ∧ c = count product (toString y) ∧ 0 < c))
    ∧ count_by_year count product none none
        = count_by_year count product (some 1970) (some 2022) := by
  refine ⟨?_, rfl⟩
  intro miny maxy y c
  unfold count_by_year dataset_count
  simp only [Option.getD_some, List.mem_filter, List.mem_map, decide_eq_true_eq]
  constructor
  · rintro ⟨⟨y', hy', heq⟩, hc⟩
    obtain ⟨rfl, rfl⟩ := Prod.mk.injEq .. |>.mp heq
    rw [mem_intRange] at hy'
    exact ⟨hy'.1, hy'.2, rfl, hc⟩
  · rintro ⟨h1, h2, rfl, hc⟩
    exact ⟨⟨y, (mem_intRange miny maxy y).mpr ⟨h1, h2⟩, rfl⟩, hc⟩

end OdcIndex
